import Mathlib

/-!
Shallow embedding of `src/backends/z3_quant/model_entities.rs` from the
verifactory repository: the Z3 quantitative encoder for flow graphs.

Rust `panic!`-style failures (out-of-bounds indexing, `Option::unwrap` on
`None`) are modelled by `Option`: a result of `none` means the Rust code
panics on that input.  Machine-integer casts (`u128 as i32`) are modelled
explicitly on `Nat`/`Int`.
-/

set_option maxHeartbeats 1000000

namespace Verifactory

/-- Exact non-negative rational capacity: the model of `GenericFraction<u128>`
(`fraction` crate) restricted to its finite `Rational` variant, where
`numer()`/`denom()` return `Some`.  Numerator and denominator are `u128`
values; u128 arithmetic never overflows here because the crate keeps
fractions reduced and the encoder multiplies by at most 2. -/
structure Fraction where
  numer : Nat
  denom : Nat
deriving DecidableEq, Repr

/-- The Rust cast `u128 as i32`: keep the low 32 bits, reinterpret as
two's-complement signed. -/
def u128AsI32 (n : Nat) : Int :=
  if n % 2 ^ 32 < 2 ^ 31 then ((n % 2 ^ 32 : Nat) : Int)
  else ((n % 2 ^ 32 : Nat) : Int) - 2 ^ 32

/-- `GenericFraction` comparison (`a_cap <= b_cap`): cross-multiplication of
numerators and denominators. -/
def Fraction.le (a b : Fraction) : Bool :=
  a.numer * b.denom ≤ b.numer * a.denom

/-- `min_cap * 2` in the `fraction` crate: multiplication keeps the result
reduced, so only the factor shared between `2 * numer` and `denom` is
cancelled. -/
def Fraction.mul2 (f : Fraction) : Fraction :=
  let g := Nat.gcd (2 * f.numer) f.denom
  ⟨2 * f.numer / g, f.denom / g⟩

/-- The `Side` of a splitter output (from `crate::ir`), two-valued. -/
inductive Side where
  | left
  | right
deriving DecidableEq, Repr

/-- `Side::other`. -/
def Side.other : Side → Side
  | .left => .right
  | .right => .left

/-- Edge payload: `Edge { capacity: GenericFraction<u128> }`. -/
structure Edge where
  capacity : Fraction
deriving DecidableEq, Repr

/-- `Input` node payload: carries the stable external identifier `id`. -/
structure Input where
  id : Nat
deriving DecidableEq, Repr

/-- `Output` node payload: no payload beyond the node's identity. -/
structure Output where
deriving DecidableEq, Repr

/-- `Connector` node payload: empty. -/
structure Connector where
deriving DecidableEq, Repr

/-- `Merger` node payload: empty. -/
structure Merger where
deriving DecidableEq, Repr

/-- `Splitter` node payload: optional output priority side. -/
structure Splitter where
  output_priority : Option Side
deriving DecidableEq, Repr

/-- The closed sum of node kinds (`crate::ir::Node`). -/
inductive Node where
  | connector (c : Connector)
  | input (c : Input)
  | output (c : Output)
  | merger (c : Merger)
  | splitter (c : Splitter)
deriving DecidableEq, Repr

/-- The flow-graph collaborator, abstracted at its interface boundary:
edge payload lookup by edge index (`graph[e]`, `none` = invalid index,
which would panic in petgraph), and the directed-adjacency queries
`in_edge_idx`, `out_edge_idx` and `get_edge(node, Outgoing, side)` of
`GraphHelper`.  Node and edge identities are the graph indices, as `Nat`. -/
structure FlowGraph where
  edgePayload : Nat → Option Edge
  in_edge_idx : Nat → List Nat
  out_edge_idx : Nat → List Nat
  get_edge_out : Nat → Side → Nat

/-- A Z3 sort, as far as this encoder uses them. -/
inductive Z3Sort where
  | int
  | real
deriving DecidableEq, Repr

/-- A Z3 constant symbol: `Int::new_const` / `Real::new_const` produce one,
identified by its sort and name. -/
structure Z3Var where
  sort : Z3Sort
  name : String
deriving DecidableEq, Repr

/-- Z3 real-valued terms built by the encoder. -/
inductive RealExpr where
  /-- a constant symbol used as a real term -/
  | var (v : Z3Var)
  /-- `Real::from_int` of an `Int` constant -/
  | fromInt (v : Z3Var)
  /-- `Real::from_real(ctx, num, den)` -/
  | num (n d : Int)
  /-- n-ary `Real::add` -/
  | add (args : List RealExpr)

/-- Z3 boolean formulas built by the encoder. -/
inductive BoolExpr where
  | le (a b : RealExpr)
  | ge (a b : RealExpr)
  | eq (a b : RealExpr)
  /-- `cond.ite(&t, &e)` on boolean branches -/
  | ite (c t e : BoolExpr)

/-- `Z3Fraction::to_z3 for GenericFraction<u128>`: numerator and denominator
are cast with `as i32` and handed to `Real::from_real`. -/
def Fraction.to_z3 (f : Fraction) : RealExpr :=
  RealExpr.num (u128AsI32 f.numer) (u128AsI32 f.denom)

/-- `Z3QuantHelper`: the encoding context.  The hash maps are modelled as
association lists where `insert` conses in front and lookup takes the first
match; `others` is the ordered constraint list (`Vec::push` appends). -/
structure Z3QuantHelper where
  edge_map : List (Nat × Z3Var)
  input_map : List (Nat × Z3Var)
  output_map : List (Nat × Z3Var)
  others : List BoolExpr

/-- The empty context at the start of an encoding pass. -/
def Z3QuantHelper.empty : Z3QuantHelper := ⟨[], [], [], []⟩

/-- `HashMap::get` on the association-list model. -/
def lookupVar (m : List (Nat × Z3Var)) (k : Nat) : Option Z3Var :=
  (m.find? (fun p => p.1 == k)).map (fun p => p.2)

/-- `edges.iter().map(|idx| edge_map.get(idx).unwrap()).collect()`:
look every index up, panicking (`none`) on the first miss. -/
def lookupAll (m : List (Nat × Z3Var)) : List Nat → Option (List Z3Var)
  | [] => some []
  | i :: is => do
    let v ← lookupVar m i
    let vs ← lookupAll m is
    some (v :: vs)

/-- `kirchhoff_law`: sum of inbound edge variables equals sum of outbound
edge variables, pushed onto `others`. -/
def kirchhoff_law (node_idx : Nat) (graph : FlowGraph) (helper : Z3QuantHelper) :
    Option Z3QuantHelper := do
  let in_consts ← lookupAll helper.edge_map (graph.in_edge_idx node_idx)
  let out_consts ← lookupAll helper.edge_map (graph.out_edge_idx node_idx)
  let in_sum := RealExpr.add (in_consts.map RealExpr.var)
  let out_sum := RealExpr.add (out_consts.map RealExpr.var)
  let ast := BoolExpr.eq in_sum out_sum
  some { helper with others := helper.others ++ [ast] }

/-- `impl Z3Node for Connector`: Kirchhoff only. -/
def Connector.model (_ : Connector) (graph : FlowGraph) (idx : Nat)
    (helper : Z3QuantHelper) : Option Z3QuantHelper :=
  kirchhoff_law idx graph helper

/-- The name `format!("input{}_{}", idx, id)`. -/
def inputName (idx : Nat) (id : Nat) : String :=
  "input" ++ toString idx ++ "_" ++ toString id

/-- The name `format!("output{}", idx)`. -/
def outputName (idx : Nat) : String :=
  "output" ++ toString idx

/-- The name `format!("edge_{}", idx)`. -/
def edgeName (idx : Nat) : String :=
  "edge_" ++ toString idx

/-- `impl Z3Node for Input`: create an `Int` constant named from the node
index and the external id, register it in `input_map`, and equate its real
coercion with the variable of the single outgoing edge (`out_edge_idx[0]`,
panicking when there is none). -/
def Input.model (self : Input) (graph : FlowGraph) (idx : Nat)
    (helper : Z3QuantHelper) : Option Z3QuantHelper := do
  let input : Z3Var := ⟨Z3Sort.int, inputName idx self.id⟩
  let input_real := RealExpr.fromInt input
  let helper1 := { helper with input_map := (idx, input) :: helper.input_map }
  match graph.out_edge_idx idx with
  | [] => none
  | out_idx :: _ => do
    let out ← lookupVar helper1.edge_map out_idx
    let ast := BoolExpr.eq input_real (RealExpr.var out)
    some { helper1 with others := helper1.others ++ [ast] }

/-- `impl Z3Node for Output`: create a `Real` constant named from the node
index, equate it with the variable of the single incoming edge
(`in_edge_idx[0]`), then register it in `output_map`. -/
def Output.model (_ : Output) (graph : FlowGraph) (idx : Nat)
    (helper : Z3QuantHelper) : Option Z3QuantHelper := do
  let output : Z3Var := ⟨Z3Sort.real, outputName idx⟩
  match graph.in_edge_idx idx with
  | [] => none
  | in_idx :: _ => do
    let inp ← lookupVar helper.edge_map in_idx
    let ast := BoolExpr.eq (RealExpr.var output) (RealExpr.var inp)
    some { helper with
            others := helper.others ++ [ast],
            output_map := (idx, output) :: helper.output_map }

/-- `impl Z3Node for Merger`: Kirchhoff only. -/
def Merger.model (_ : Merger) (graph : FlowGraph) (idx : Nat)
    (helper : Z3QuantHelper) : Option Z3QuantHelper :=
  kirchhoff_law idx graph helper

/-- The routing constraint a splitter pushes after its Kirchhoff
constraint (the body of the `match self.output_priority` at
`model_entities.rs:160-201`, including the preceding read of
`in_edge_idx(idx)[0]` and its `edge_map` unwrap). -/
def splitterAst (self : Splitter) (graph : FlowGraph) (idx : Nat)
    (helper1 : Z3QuantHelper) : Option BoolExpr := do
  match graph.in_edge_idx idx with
  | [] => none
  | in_idx :: _ => do
    let in_var ← lookupVar helper1.edge_map in_idx
    match self.output_priority with
    | none =>
      match graph.out_edge_idx idx with
      | a_idx :: b_idx :: _ => do
        let ea ← graph.edgePayload a_idx
        let eb ← graph.edgePayload b_idx
        let a_cap := ea.capacity
        let b_cap := eb.capacity
        let (min_idx, max_idx) :=
          if Fraction.le a_cap b_cap then (a_idx, b_idx) else (b_idx, a_idx)
        let min_var ← lookupVar helper1.edge_map min_idx
        let max_var ← lookupVar helper1.edge_map max_idx
        let emin ← graph.edgePayload min_idx
        let min_cap := emin.capacity
        let min_cap_var := min_cap.to_z3
        let out_min := min_cap.mul2
        let out_min_var := out_min.to_z3
        some (BoolExpr.ite
          (BoolExpr.le (RealExpr.var in_var) out_min_var)
          (BoolExpr.eq (RealExpr.var min_var) (RealExpr.var max_var))
          (BoolExpr.eq (RealExpr.var min_var) min_cap_var))
      | _ => none
    | some side => do
      let prio_idx := graph.get_edge_out idx side
      let other_idx := graph.get_edge_out idx side.other
      let prio_var ← lookupVar helper1.edge_map prio_idx
      let other_var ← lookupVar helper1.edge_map other_idx
      let ep ← graph.edgePayload prio_idx
      let prio_cap := ep.capacity
      let prio_cap_var := prio_cap.to_z3
      let zero := RealExpr.num 0 1
      some (BoolExpr.ite
        (BoolExpr.le (RealExpr.var in_var) prio_cap_var)
        (BoolExpr.eq (RealExpr.var other_var) zero)
        (BoolExpr.eq (RealExpr.var prio_var) prio_cap_var))

/-- `impl Z3Node for Splitter`: Kirchhoff first, then one routing
constraint chosen by `output_priority`, pushed onto `others`. -/
def Splitter.model (self : Splitter) (graph : FlowGraph) (idx : Nat)
    (helper : Z3QuantHelper) : Option Z3QuantHelper := do
  let helper1 ← kirchhoff_law idx graph helper
  let ast ← splitterAst self graph idx helper1
  some { helper1 with others := helper1.others ++ [ast] }

/-- `impl Z3Node for Node`: dispatch on the node kind. -/
def Node.model (self : Node) (graph : FlowGraph) (idx : Nat)
    (helper : Z3QuantHelper) : Option Z3QuantHelper :=
  match self with
  | .connector c => c.model graph idx helper
  | .input c => c.model graph idx helper
  | .output c => c.model graph idx helper
  | .merger c => c.model graph idx helper
  | .splitter c => c.model graph idx helper

/-- `impl Z3Edge for Edge`: cast the capacity with `as i32`, create a real
constant named from the edge index, push `edge ≤ capacity` and
`edge ≥ 0`, and register the variable in `edge_map`.  Total: no error
path. -/
def Edge.model (self : Edge) (idx : Nat) (helper : Z3QuantHelper) :
    Z3QuantHelper :=
  let capacity := RealExpr.num (u128AsI32 self.capacity.numer)
                              (u128AsI32 self.capacity.denom)
  let edge : Z3Var := ⟨Z3Sort.real, edgeName idx⟩
  let zero := RealExpr.num 0 1
  { helper with
    others := helper.others ++
      [BoolExpr.le (RealExpr.var edge) capacity,
       BoolExpr.ge (RealExpr.var edge) zero],
    edge_map := (idx, edge) :: helper.edge_map }

/-- Modelled from the spec: the orchestrator (in `model_graph.rs`, outside
the covered source) "iterates all edges, invoking the edge encoder, then
iterates all nodes, invoking the node encoder", starting from an empty
context.  Edges and nodes are given as association lists of
(graph index, payload). -/
def encodePass (graph : FlowGraph) (edges : List (Nat × Edge))
    (nodes : List (Nat × Node)) : Option Z3QuantHelper :=
  let h := edges.foldl (fun h p => Edge.model p.2 p.1 h) Z3QuantHelper.empty
  nodes.foldlM (fun h p => Node.model p.2 graph p.1 h) h

mutual

/-- Denotation of a real term under a valuation of the constants.
`Real::from_int` of an integer constant takes the constant's (rational)
value; `Real::from_real n d` denotes n/d. -/
def RealExpr.val (ρ : Z3Var → Rat) : RealExpr → Rat
  | .var v => ρ v
  | .fromInt v => ρ v
  | .num n d => (n : Rat) / (d : Rat)
  | .add args => RealExpr.valList ρ args

/-- Denotation of an n-ary `Real::add`. -/
def RealExpr.valList (ρ : Z3Var → Rat) : List RealExpr → Rat
  | [] => 0
  | a :: as => RealExpr.val ρ a + RealExpr.valList ρ as

end

/-- Truth of a boolean formula under a valuation. -/
def BoolExpr.sat (ρ : Z3Var → Rat) : BoolExpr → Bool
  | .le a b => decide (RealExpr.val ρ a ≤ RealExpr.val ρ b)
  | .ge a b => decide (RealExpr.val ρ b ≤ RealExpr.val ρ a)
  | .eq a b => decide (RealExpr.val ρ a = RealExpr.val ρ b)
  | .ite c t e => if c.sat ρ then t.sat ρ else e.sat ρ

/-- A small concrete flow graph used to evaluate the encoders on closed
inputs: node 0 is an Input feeding edge 0, node 2 a splitter with inbound
edge 0 and outbound edges 1 and 2, node 3 an Output fed by edge 1, and
node 1 has no incident edges at all. -/
def gW : FlowGraph where
  edgePayload := fun e =>
    if e = 0 then some ⟨⟨3, 1⟩⟩
    else if e = 1 then some ⟨⟨2, 1⟩⟩
    else if e = 2 then some ⟨⟨5, 1⟩⟩
    else none
  in_edge_idx := fun n =>
    if n = 2 then [0] else if n = 3 then [1] else []
  out_edge_idx := fun n =>
    if n = 0 then [0] else if n = 2 then [1, 2] else []
  get_edge_out := fun _ s => match s with | .left => 1 | .right => 2

/-- The context after the edge pass of `gW`: all three edges encoded. -/
def hW : Z3QuantHelper :=
  Edge.model ⟨⟨5, 1⟩⟩ 2 (Edge.model ⟨⟨2, 1⟩⟩ 1 (Edge.model ⟨⟨3, 1⟩⟩ 0 .empty))

/-- A concrete graph whose node 2 is a splitter with one inbound edge and
three outbound edges (a malformed splitter per the spec). -/
def g3 : FlowGraph where
  edgePayload := fun e => if e ≤ 3 then some ⟨⟨e + 1, 1⟩⟩ else none
  in_edge_idx := fun n => if n = 2 then [0] else []
  out_edge_idx := fun n => if n = 2 then [1, 2, 3] else []
  get_edge_out := fun _ _ => 0

/-- The context after the edge pass of `g3`: all four edges encoded. -/
def h3 : Z3QuantHelper :=
  Edge.model ⟨⟨4, 1⟩⟩ 3 (Edge.model ⟨⟨3, 1⟩⟩ 2
    (Edge.model ⟨⟨2, 1⟩⟩ 1 (Edge.model ⟨⟨1, 1⟩⟩ 0 .empty)))

/-! ## Helper lemmas about the encoders -/

theorem u128AsI32_of_lt {n : Nat} (h : n < 2 ^ 31) : u128AsI32 n = n := by
  have h32 : n < 2 ^ 32 := lt_trans h (by norm_num)
  unfold u128AsI32
  rw [Nat.mod_eq_of_lt h32, if_pos h]

theorem kirchhoff_law_some_of {idx : Nat} {g : FlowGraph} {h : Z3QuantHelper}
    {ins outs : List Z3Var}
    (h1 : lookupAll h.edge_map (g.in_edge_idx idx) = some ins)
    (h2 : lookupAll h.edge_map (g.out_edge_idx idx) = some outs) :
    kirchhoff_law idx g h =
      some { h with others := h.others ++
        [BoolExpr.eq (RealExpr.add (ins.map RealExpr.var))
                     (RealExpr.add (outs.map RealExpr.var))] } := by
  simp [kirchhoff_law, h1, h2]

theorem kirchhoff_law_some {idx : Nat} {g : FlowGraph} {h r : Z3QuantHelper}
    (hk : kirchhoff_law idx g h = some r) :
    ∃ ins outs,
      lookupAll h.edge_map (g.in_edge_idx idx) = some ins ∧
      lookupAll h.edge_map (g.out_edge_idx idx) = some outs ∧
      r = { h with others := h.others ++
        [BoolExpr.eq (RealExpr.add (ins.map RealExpr.var))
                     (RealExpr.add (outs.map RealExpr.var))] } := by
  unfold kirchhoff_law at hk
  cases h1 : lookupAll h.edge_map (g.in_edge_idx idx) with
  | none => rw [h1] at hk; simp at hk
  | some ins =>
    rw [h1] at hk
    cases h2 : lookupAll h.edge_map (g.out_edge_idx idx) with
    | none => rw [h2] at hk; simp at hk
    | some outs =>
      rw [h2] at hk
      simp at hk
      exact ⟨ins, outs, rfl, rfl, hk.symm⟩

theorem input_model_some {inp : Input} {g : FlowGraph} {idx : Nat}
    {h r : Z3QuantHelper} (hm : Input.model inp g idx h = some r) :
    ∃ o rest v, g.out_edge_idx idx = o :: rest ∧
      lookupVar h.edge_map o = some v ∧
      r = { h with
            input_map := (idx, ⟨Z3Sort.int, inputName idx inp.id⟩) :: h.input_map,
            others := h.others ++
              [BoolExpr.eq (RealExpr.fromInt ⟨Z3Sort.int, inputName idx inp.id⟩)
                           (RealExpr.var v)] } := by
  unfold Input.model at hm
  cases ho : g.out_edge_idx idx with
  | nil => rw [ho] at hm; simp at hm
  | cons o rest =>
    rw [ho] at hm
    cases hv : lookupVar h.edge_map o with
    | none => simp [hv] at hm
    | some v =>
      simp [hv] at hm
      exact ⟨o, rest, v, rfl, hv, hm.symm⟩

theorem input_model_none_of_no_out {inp : Input} {g : FlowGraph} {idx : Nat}
    {h : Z3QuantHelper} (hno : g.out_edge_idx idx = []) :
    Input.model inp g idx h = none := by
  simp [Input.model, hno]

theorem output_model_some {out : Output} {g : FlowGraph} {idx : Nat}
    {h r : Z3QuantHelper} (hm : Output.model out g idx h = some r) :
    ∃ i rest v, g.in_edge_idx idx = i :: rest ∧
      lookupVar h.edge_map i = some v ∧
      r = { h with
            others := h.others ++
              [BoolExpr.eq (RealExpr.var ⟨Z3Sort.real, outputName idx⟩)
                           (RealExpr.var v)],
            output_map := (idx, ⟨Z3Sort.real, outputName idx⟩) :: h.output_map } := by
  unfold Output.model at hm
  cases hi : g.in_edge_idx idx with
  | nil => rw [hi] at hm; simp at hm
  | cons i rest =>
    rw [hi] at hm
    cases hv : lookupVar h.edge_map i with
    | none => simp [hv] at hm
    | some v =>
      simp [hv] at hm
      exact ⟨i, rest, v, rfl, hv, hm.symm⟩

theorem output_model_none_of_no_in {out : Output} {g : FlowGraph} {idx : Nat}
    {h : Z3QuantHelper} (hno : g.in_edge_idx idx = []) :
    Output.model out g idx h = none := by
  simp [Output.model, hno]

theorem splitter_model_some {s : Splitter} {g : FlowGraph} {idx : Nat}
    {h r : Z3QuantHelper} (hm : Splitter.model s g idx h = some r) :
    ∃ h1 ast, kirchhoff_law idx g h = some h1 ∧
      splitterAst s g idx h1 = some ast ∧
      r = { h1 with others := h1.others ++ [ast] } := by
  unfold Splitter.model at hm
  cases hk : kirchhoff_law idx g h with
  | none => rw [hk] at hm; simp at hm
  | some h1 =>
    rw [hk] at hm
    cases ha : splitterAst s g idx h1 with
    | none => simp [ha] at hm
    | some ast =>
      simp [ha] at hm
      exact ⟨h1, ast, rfl, ha, hm.symm⟩

theorem splitterAst_none_of_no_in {s : Splitter} {g : FlowGraph} {idx : Nat}
    {h1 : Z3QuantHelper} (hno : g.in_edge_idx idx = []) :
    splitterAst s g idx h1 = none := by
  simp [splitterAst, hno]

theorem splitter_model_none_of_no_in {s : Splitter} {g : FlowGraph} {idx : Nat}
    {h : Z3QuantHelper} (hno : g.in_edge_idx idx = []) :
    Splitter.model s g idx h = none := by
  unfold Splitter.model
  cases hk : kirchhoff_law idx g h with
  | none => rfl
  | some h1 => simp [splitterAst_none_of_no_in hno]

/-! ## Claim C1 -/

/-- Claim C1, counterexample: an Input node with zero outgoing edges (node 1
of `gW`) makes the encoder panic (out-of-bounds indexing, modelled `none`)
instead of returning a reported, recoverable error; and a Splitter with
three outgoing edges (node 2 of `g3`) is encoded successfully with no error
at all.  So arity violations are never "reported, recoverable errors". -/
theorem C1_arity_violation_not_reported :
    Input.model ⟨5⟩ gW 1 hW = none ∧
    (Splitter.model ⟨none⟩ g3 2 h3).isSome = true := ⟨rfl, rfl⟩

/-- Claim C1 (amended): the node encoders return no error value at all.
A node whose required edge is missing — an Input with zero outgoing edges,
an Output with zero incoming edges, or a Splitter with zero incoming
edges — makes the encoder panic (`none`, an out-of-bounds index in the
Rust source); a node with MORE edges than its kind allows is silently
accepted (the extra edges are ignored by the boundary/routing logic). -/
theorem C1_too_few_edges_panic (inp : Input) (out : Output) (s : Splitter)
    (g : FlowGraph) (i1 i2 i3 : Nat) (h : Z3QuantHelper)
    (ha : g.out_edge_idx i1 = []) (hb : g.in_edge_idx i2 = [])
    (hc : g.in_edge_idx i3 = []) :
    Input.model inp g i1 h = none ∧
    Output.model out g i2 h = none ∧
    Splitter.model s g i3 h = none :=
  ⟨input_model_none_of_no_out ha, output_model_none_of_no_in hb,
   splitter_model_none_of_no_in hc⟩

/-- Witness for `C1_too_few_edges_panic` at node 1 of `gW`, which has no
incident edges. -/
theorem C1_too_few_edges_panic_witness :
    Input.model ⟨5⟩ gW 1 hW = none ∧
    Output.model ⟨⟩ gW 1 hW = none ∧
    Splitter.model ⟨none⟩ gW 1 hW = none :=
  C1_too_few_edges_panic ⟨5⟩ ⟨⟩ ⟨none⟩ gW 1 1 1 hW rfl rfl rfl

/-! ## Claim C2 -/

/-- Claim C2, counterexample: the conversion to the solver representation is
not lossless and rejects nothing: the capacity 2^32 (numerator exceeding
the solver's native `i32` width) is silently cast to the same solver term
as the capacity 0. -/
theorem C2_silent_truncation :
    Fraction.to_z3 ⟨2 ^ 32, 1⟩ = Fraction.to_z3 ⟨0, 1⟩ ∧
    (⟨2 ^ 32, 1⟩ : Fraction) ≠ (⟨0, 1⟩ : Fraction) := by
  refine ⟨?_, by decide⟩
  norm_num [Fraction.to_z3, u128AsI32]

/-- Claim C2 (amended): conversion casts numerator and denominator with
Rust's `as i32` (low 32 bits, reinterpreted as signed); it is lossless
when both are below 2^31 — syntactically and in denoted value — and
silently truncates otherwise; no out-of-range value is ever rejected or
reported. -/
theorem C2_lossless_only_in_i32_range (f : Fraction) (ρ : Z3Var → Rat)
    (hn : f.numer < 2 ^ 31) (hd : f.denom < 2 ^ 31) :
    f.to_z3 = RealExpr.num f.numer f.denom ∧
    RealExpr.val ρ f.to_z3 = (f.numer : Rat) / (f.denom : Rat) := by
  have h1 : f.to_z3 = RealExpr.num f.numer f.denom := by
    unfold Fraction.to_z3
    rw [u128AsI32_of_lt hn, u128AsI32_of_lt hd]
  refine ⟨h1, ?_⟩
  rw [h1]
  simp [RealExpr.val]

/-- Witness for `C2_lossless_only_in_i32_range` at the capacity 3/2. -/
theorem C2_lossless_witness :
    Fraction.to_z3 ⟨3, 2⟩ = RealExpr.num 3 2 ∧
    RealExpr.val (fun _ => 0) (Fraction.to_z3 ⟨3, 2⟩) = (3 : Rat) / 2 :=
  C2_lossless_only_in_i32_range ⟨3, 2⟩ (fun _ => 0) (by norm_num) (by norm_num)

/-! ## Claim C3 -/

/-- Claim C3, counterexample: the external input variable registered in the
input map is NOT real-typed: encoding the Input node 0 of `gW` registers an
`Int`-sorted constant (`Int::new_const` at `model_entities.rs:101`). -/
theorem C3_input_var_not_real :
    (Input.model ⟨5⟩ gW 0 hW).map (fun r => r.input_map.map fun p => p.2.sort) =
      some [Z3Sort.int] ∧ Z3Sort.int ≠ Z3Sort.real :=
  ⟨rfl, by decide⟩

/-- Claim C3 (amended): the per-edge and per-Output flow variables are
solver-native real-typed symbols, but the external variable an Input node
registers in the input map is integer-typed; only its real coercion
(`Real::from_int`) appears in the emitted constraint. -/
theorem C3_variable_sorts (e : Edge) (eidx : Nat) (inp : Input) (out : Output)
    (g : FlowGraph) (idx idx' : Nat) (h ri ro : Z3QuantHelper)
    (hi : Input.model inp g idx h = some ri)
    (ho : Output.model out g idx' h = some ro) :
    (Edge.model e eidx h).edge_map =
      (eidx, ⟨Z3Sort.real, edgeName eidx⟩) :: h.edge_map ∧
    ro.output_map = (idx', ⟨Z3Sort.real, outputName idx'⟩) :: h.output_map ∧
    ri.input_map = (idx, ⟨Z3Sort.int, inputName idx inp.id⟩) :: h.input_map := by
  obtain ⟨_, _, _, _, _, hri⟩ := input_model_some hi
  obtain ⟨_, _, _, _, _, hro⟩ := output_model_some ho
  exact ⟨rfl, by rw [hro], by rw [hri]⟩

/-- The result of encoding Input node 0 of `gW`. -/
def riW : Z3QuantHelper :=
  { hW with
    input_map := (0, ⟨Z3Sort.int, inputName 0 5⟩) :: hW.input_map,
    others := hW.others ++
      [BoolExpr.eq (RealExpr.fromInt ⟨Z3Sort.int, inputName 0 5⟩)
                   (RealExpr.var ⟨Z3Sort.real, edgeName 0⟩)] }

/-- The result of encoding Output node 3 of `gW`. -/
def roW : Z3QuantHelper :=
  { hW with
    others := hW.others ++
      [BoolExpr.eq (RealExpr.var ⟨Z3Sort.real, outputName 3⟩)
                   (RealExpr.var ⟨Z3Sort.real, edgeName 1⟩)],
    output_map := (3, ⟨Z3Sort.real, outputName 3⟩) :: hW.output_map }

/-- Witness for `C3_variable_sorts` on the concrete graph `gW`. -/
theorem C3_variable_sorts_witness :
    (Edge.model ⟨⟨3, 1⟩⟩ 9 hW).edge_map =
      (9, ⟨Z3Sort.real, edgeName 9⟩) :: hW.edge_map ∧
    roW.output_map = (3, ⟨Z3Sort.real, outputName 3⟩) :: hW.output_map ∧
    riW.input_map = (0, ⟨Z3Sort.int, inputName 0 5⟩) :: hW.input_map :=
  C3_variable_sorts ⟨⟨3, 1⟩⟩ 9 ⟨5⟩ ⟨⟩ gW 0 3 hW riW roW rfl rfl

/-! ## Claim C6 -/

/-- Claim C6, counterexample: for the edge capacity 2^31 (representable in
the exact rational type) the encoder does NOT emit `flow ≤ capacity`: the
`as i32` cast wraps 2^31 to −2^31, so the emitted upper bound is
`flow ≤ −2^31`.  The flow value 1 satisfies `0 ≤ flow ≤ capacity` but
falsifies the emitted constraint. -/
theorem C6_capacity_overflow :
    (Edge.model ⟨⟨2 ^ 31, 1⟩⟩ 0 Z3QuantHelper.empty).others =
      [BoolExpr.le (RealExpr.var ⟨Z3Sort.real, edgeName 0⟩)
         (RealExpr.num (-(2 ^ 31)) 1),
       BoolExpr.ge (RealExpr.var ⟨Z3Sort.real, edgeName 0⟩)
         (RealExpr.num 0 1)] ∧
    BoolExpr.sat (fun _ => 1)
      (BoolExpr.le (RealExpr.var ⟨Z3Sort.real, edgeName 0⟩)
        (RealExpr.num (-(2 ^ 31)) 1)) = false ∧
    (0 : Rat) ≤ 1 ∧ (1 : Rat) ≤ ((2 ^ 31 : Nat) : Rat) / ((1 : Nat) : Rat) := by
  refine ⟨?_, ?_, by norm_num, by norm_num⟩
  · norm_num [Edge.model, u128AsI32, Z3QuantHelper.empty]
  · simp only [BoolExpr.sat, RealExpr.val, decide_eq_false_iff_not]
    norm_num

/-- Claim C6 (amended): for every edge, the edge encoder appends exactly
two constraints — `flow ≤ c` where `c` is the capacity with numerator and
denominator cast through `as i32`, and `flow ≥ 0` — registers the new real
variable under the edge's identity, touches nothing else, and has no error
path (it is a total function).  The upper bound `c` equals the edge's true
capacity — syntactically and in every model — exactly when numerator and
denominator are below 2^31; beyond that the bound is the silently wrapped
value (see the counterexample, capacity 2^31 ↦ bound −2^31). -/
theorem C6_edge_encoder_bounds (e : Edge) (idx : Nat) (h : Z3QuantHelper)
    (hn : e.capacity.numer < 2 ^ 31) (hd : e.capacity.denom < 2 ^ 31) :
    (∀ (e' : Edge) (idx' : Nat) (h' : Z3QuantHelper),
      Edge.model e' idx' h' =
        { h' with
          others := h'.others ++
            [BoolExpr.le (RealExpr.var ⟨Z3Sort.real, edgeName idx'⟩)
               (RealExpr.num (u128AsI32 e'.capacity.numer)
                 (u128AsI32 e'.capacity.denom)),
             BoolExpr.ge (RealExpr.var ⟨Z3Sort.real, edgeName idx'⟩)
               (RealExpr.num 0 1)],
          edge_map := (idx', ⟨Z3Sort.real, edgeName idx'⟩) :: h'.edge_map }) ∧
    Edge.model e idx h =
      { h with
        others := h.others ++
          [BoolExpr.le (RealExpr.var ⟨Z3Sort.real, edgeName idx⟩)
             (RealExpr.num e.capacity.numer e.capacity.denom),
           BoolExpr.ge (RealExpr.var ⟨Z3Sort.real, edgeName idx⟩)
             (RealExpr.num 0 1)],
        edge_map := (idx, ⟨Z3Sort.real, edgeName idx⟩) :: h.edge_map } ∧
    ∀ ρ : Z3Var → Rat,
      (BoolExpr.sat ρ (BoolExpr.le (RealExpr.var ⟨Z3Sort.real, edgeName idx⟩)
           (RealExpr.num e.capacity.numer e.capacity.denom)) = true ∧
       BoolExpr.sat ρ (BoolExpr.ge (RealExpr.var ⟨Z3Sort.real, edgeName idx⟩)
           (RealExpr.num 0 1)) = true) ↔
      (0 ≤ ρ ⟨Z3Sort.real, edgeName idx⟩ ∧
       ρ ⟨Z3Sort.real, edgeName idx⟩ ≤
         (e.capacity.numer : Rat) / (e.capacity.denom : Rat)) := by
  refine ⟨fun e' idx' h' => rfl, ?_, ?_⟩
  · unfold Edge.model
    rw [u128AsI32_of_lt hn, u128AsI32_of_lt hd]
  · intro ρ
    simp only [BoolExpr.sat, RealExpr.val, decide_eq_true_eq]
    push_cast
    constructor
    · rintro ⟨h1, h2⟩
      refine ⟨by simpa using h2, h1⟩
    · rintro ⟨h1, h2⟩
      exact ⟨h2, by simpa using h1⟩

/-- Witness for `C6_edge_encoder_bounds` at edge 9 with capacity 3. -/
theorem C6_edge_encoder_bounds_witness :
    Edge.model ⟨⟨3, 1⟩⟩ 9 Z3QuantHelper.empty =
      { Z3QuantHelper.empty with
        others :=
          [BoolExpr.le (RealExpr.var ⟨Z3Sort.real, edgeName 9⟩)
             (RealExpr.num 3 1),
           BoolExpr.ge (RealExpr.var ⟨Z3Sort.real, edgeName 9⟩)
             (RealExpr.num 0 1)],
        edge_map := [(9, ⟨Z3Sort.real, edgeName 9⟩)] } :=
  (C6_edge_encoder_bounds ⟨⟨3, 1⟩⟩ 9 Z3QuantHelper.empty
    (by norm_num) (by norm_num)).2.1

/-! ## Claim C4 -/

/-- Claim C4: a Splitter with `priority = None` and exactly two outgoing
edges appends, after its Kirchhoff constraint, exactly one routing
constraint, a single if-then-else formula: with `min` the outgoing edge of
weakly smaller capacity (tie broken toward the edge listed first in the
adjacency query) and `max` the other, it reads
`if inflow ≤ 2·capacity(min) then flow(min) = flow(max) else
flow(min) = capacity(min)`. -/
theorem C4_symmetric_splitter (g : FlowGraph) (idx : Nat) (h : Z3QuantHelper)
    (i0 a b : Nat) (vi va vb : Z3Var) (ea eb : Edge)
    (hin : g.in_edge_idx idx = [i0])
    (hout : g.out_edge_idx idx = [a, b])
    (hvi : lookupVar h.edge_map i0 = some vi)
    (hva : lookupVar h.edge_map a = some va)
    (hvb : lookupVar h.edge_map b = some vb)
    (hea : g.edgePayload a = some ea)
    (heb : g.edgePayload b = some eb) :
    Splitter.model ⟨none⟩ g idx h =
      some { h with others := h.others ++
        [BoolExpr.eq (RealExpr.add [RealExpr.var vi])
                     (RealExpr.add [RealExpr.var va, RealExpr.var vb]),
         if Fraction.le ea.capacity eb.capacity then
           BoolExpr.ite
             (BoolExpr.le (RealExpr.var vi) ea.capacity.mul2.to_z3)
             (BoolExpr.eq (RealExpr.var va) (RealExpr.var vb))
             (BoolExpr.eq (RealExpr.var va) ea.capacity.to_z3)
         else
           BoolExpr.ite
             (BoolExpr.le (RealExpr.var vi) eb.capacity.mul2.to_z3)
             (BoolExpr.eq (RealExpr.var vb) (RealExpr.var va))
             (BoolExpr.eq (RealExpr.var vb) eb.capacity.to_z3)] } := by
  have hins : lookupAll h.edge_map (g.in_edge_idx idx) = some [vi] := by
    simp [hin, lookupAll, hvi]
  have houts : lookupAll h.edge_map (g.out_edge_idx idx) = some [va, vb] := by
    simp [hout, lookupAll, hva, hvb]
  have hk := kirchhoff_law_some_of hins houts
  unfold Splitter.model
  rw [hk]
  cases hle : Fraction.le ea.capacity eb.capacity <;>
    simp [splitterAst, hin, hout, hvi, hva, hvb, hea, heb, hle]

/-- Witness for `C4_symmetric_splitter` at splitter node 2 of `gW`
(outgoing capacities 2 and 5, so the first-listed edge 1 is `min`). -/
theorem C4_symmetric_splitter_witness :
    Splitter.model ⟨none⟩ gW 2 hW =
      some { hW with others := hW.others ++
        [BoolExpr.eq (RealExpr.add [RealExpr.var ⟨Z3Sort.real, edgeName 0⟩])
                     (RealExpr.add [RealExpr.var ⟨Z3Sort.real, edgeName 1⟩,
                                    RealExpr.var ⟨Z3Sort.real, edgeName 2⟩]),
         if Fraction.le (⟨2, 1⟩ : Fraction) (⟨5, 1⟩ : Fraction) then
           BoolExpr.ite
             (BoolExpr.le (RealExpr.var ⟨Z3Sort.real, edgeName 0⟩)
               (Fraction.mul2 ⟨2, 1⟩).to_z3)
             (BoolExpr.eq (RealExpr.var ⟨Z3Sort.real, edgeName 1⟩)
               (RealExpr.var ⟨Z3Sort.real, edgeName 2⟩))
             (BoolExpr.eq (RealExpr.var ⟨Z3Sort.real, edgeName 1⟩)
               (Fraction.to_z3 ⟨2, 1⟩))
         else
           BoolExpr.ite
             (BoolExpr.le (RealExpr.var ⟨Z3Sort.real, edgeName 0⟩)
               (Fraction.mul2 ⟨5, 1⟩).to_z3)
             (BoolExpr.eq (RealExpr.var ⟨Z3Sort.real, edgeName 2⟩)
               (RealExpr.var ⟨Z3Sort.real, edgeName 1⟩))
             (BoolExpr.eq (RealExpr.var ⟨Z3Sort.real, edgeName 2⟩)
               (Fraction.to_z3 ⟨5, 1⟩))] } :=
  C4_symmetric_splitter gW 2 hW 0 1 2
    ⟨Z3Sort.real, edgeName 0⟩ ⟨Z3Sort.real, edgeName 1⟩ ⟨Z3Sort.real, edgeName 2⟩
    ⟨⟨2, 1⟩⟩ ⟨⟨5, 1⟩⟩ rfl rfl rfl rfl rfl rfl rfl

/-! ## Claim C5 -/

/-- Claim C5: a Splitter with `priority = Some(side)` appends, after its
Kirchhoff constraint, exactly one routing constraint, a single
if-then-else formula over the edge on the designated side (`prio`, from
the graph's side query) and the edge on the opposite side (`other`):
`if inflow ≤ capacity(prio) then flow(other) = 0 else
flow(prio) = capacity(prio)`. -/
theorem C5_priority_splitter (g : FlowGraph) (idx : Nat) (h : Z3QuantHelper)
    (side : Side) (i0 : Nat) (vi vp vo : Z3Var) (outs : List Z3Var) (ep : Edge)
    (hin : g.in_edge_idx idx = [i0])
    (houts : lookupAll h.edge_map (g.out_edge_idx idx) = some outs)
    (hvi : lookupVar h.edge_map i0 = some vi)
    (hvp : lookupVar h.edge_map (g.get_edge_out idx side) = some vp)
    (hvo : lookupVar h.edge_map (g.get_edge_out idx side.other) = some vo)
    (hep : g.edgePayload (g.get_edge_out idx side) = some ep) :
    Splitter.model ⟨some side⟩ g idx h =
      some { h with others := h.others ++
        [BoolExpr.eq (RealExpr.add [RealExpr.var vi])
                     (RealExpr.add (outs.map RealExpr.var)),
         BoolExpr.ite
           (BoolExpr.le (RealExpr.var vi) ep.capacity.to_z3)
           (BoolExpr.eq (RealExpr.var vo) (RealExpr.num 0 1))
           (BoolExpr.eq (RealExpr.var vp) ep.capacity.to_z3)] } := by
  have hins : lookupAll h.edge_map (g.in_edge_idx idx) = some [vi] := by
    simp [hin, lookupAll, hvi]
  have hk := kirchhoff_law_some_of hins houts
  unfold Splitter.model
  rw [hk]
  simp [splitterAst, hin, hvi, hvp, hvo, hep]

/-- Witness for `C5_priority_splitter` at splitter node 2 of `gW` with
priority on the left side (edge 1, capacity 2). -/
theorem C5_priority_splitter_witness :
    Splitter.model ⟨some Side.left⟩ gW 2 hW =
      some { hW with others := hW.others ++
        [BoolExpr.eq (RealExpr.add [RealExpr.var ⟨Z3Sort.real, edgeName 0⟩])
                     (RealExpr.add [RealExpr.var ⟨Z3Sort.real, edgeName 1⟩,
                                    RealExpr.var ⟨Z3Sort.real, edgeName 2⟩]),
         BoolExpr.ite
           (BoolExpr.le (RealExpr.var ⟨Z3Sort.real, edgeName 0⟩)
             (Fraction.to_z3 ⟨2, 1⟩))
           (BoolExpr.eq (RealExpr.var ⟨Z3Sort.real, edgeName 2⟩)
             (RealExpr.num 0 1))
           (BoolExpr.eq (RealExpr.var ⟨Z3Sort.real, edgeName 1⟩)
             (Fraction.to_z3 ⟨2, 1⟩))] } :=
  C5_priority_splitter gW 2 hW Side.left 0
    ⟨Z3Sort.real, edgeName 0⟩ ⟨Z3Sort.real, edgeName 1⟩ ⟨Z3Sort.real, edgeName 2⟩
    [⟨Z3Sort.real, edgeName 1⟩, ⟨Z3Sort.real, edgeName 2⟩] ⟨⟨2, 1⟩⟩
    rfl rfl rfl rfl rfl rfl

/-! ## Claim C7 -/

/-- Claim C7: the conservation helper emits exactly one constraint,
equating the sum of the inbound edge variables with the sum of the
outbound edge variables; the Connector and Merger encoders are exactly
this helper (nothing else); and any successful Splitter encoding appends
the Kirchhoff constraint first, followed by exactly one routing
constraint. -/
theorem C7_kirchhoff (idx : Nat) (g : FlowGraph) (h : Z3QuantHelper)
    (ins outs : List Z3Var)
    (h1 : lookupAll h.edge_map (g.in_edge_idx idx) = some ins)
    (h2 : lookupAll h.edge_map (g.out_edge_idx idx) = some outs) :
    kirchhoff_law idx g h =
      some { h with others := h.others ++
        [BoolExpr.eq (RealExpr.add (ins.map RealExpr.var))
                     (RealExpr.add (outs.map RealExpr.var))] } ∧
    (∀ c : Connector, Connector.model c g idx h = kirchhoff_law idx g h) ∧
    (∀ m : Merger, Merger.model m g idx h = kirchhoff_law idx g h) ∧
    ∀ (s : Splitter) (r : Z3QuantHelper), Splitter.model s g idx h = some r →
      ∃ c, r.others = h.others ++
        [BoolExpr.eq (RealExpr.add (ins.map RealExpr.var))
                     (RealExpr.add (outs.map RealExpr.var)), c] := by
  refine ⟨kirchhoff_law_some_of h1 h2, fun _ => rfl, fun _ => rfl, ?_⟩
  intro s r hm
  obtain ⟨h1', ast, hk, _, hr⟩ := splitter_model_some hm
  rw [kirchhoff_law_some_of h1 h2] at hk
  injection hk with hk'
  subst hk'
  exact ⟨ast, by rw [hr]; simp⟩

/-- Witness for `C7_kirchhoff` at splitter node 2 of `gW`. -/
theorem C7_kirchhoff_witness :
    kirchhoff_law 2 gW hW =
      some { hW with others := hW.others ++
        [BoolExpr.eq (RealExpr.add [RealExpr.var ⟨Z3Sort.real, edgeName 0⟩])
                     (RealExpr.add [RealExpr.var ⟨Z3Sort.real, edgeName 1⟩,
                                    RealExpr.var ⟨Z3Sort.real, edgeName 2⟩])] } :=
  (C7_kirchhoff 2 gW hW [⟨Z3Sort.real, edgeName 0⟩]
    [⟨Z3Sort.real, edgeName 1⟩, ⟨Z3Sort.real, edgeName 2⟩] rfl rfl).1

/-! ## The shape of the maps built by an encoding pass -/

/-- The `edge_map` entry the edge encoder creates for one edge. -/
def edgeEntries (edges : List (Nat × Edge)) : List (Nat × Z3Var) :=
  edges.map fun p => (p.1, ⟨Z3Sort.real, edgeName p.1⟩)

/-- The `input_map` entry a node contributes (non-empty only for Input). -/
def nodeInputEntry : Node → Nat → List (Nat × Z3Var)
  | .input inp, idx => [(idx, ⟨Z3Sort.int, inputName idx inp.id⟩)]
  | _, _ => []

/-- The `output_map` entry a node contributes (non-empty only for Output). -/
def nodeOutputEntry : Node → Nat → List (Nat × Z3Var)
  | .output _, idx => [(idx, ⟨Z3Sort.real, outputName idx⟩)]
  | _, _ => []

/-- All `input_map` entries a node list contributes, in encounter order. -/
def inputEntries (nodes : List (Nat × Node)) : List (Nat × Z3Var) :=
  nodes.filterMap fun p =>
    match p.2 with
    | .input inp => some (p.1, (⟨Z3Sort.int, inputName p.1 inp.id⟩ : Z3Var))
    | _ => none

/-- All `output_map` entries a node list contributes, in encounter order. -/
def outputEntries (nodes : List (Nat × Node)) : List (Nat × Z3Var) :=
  nodes.filterMap fun p =>
    match p.2 with
    | .output _ => some (p.1, (⟨Z3Sort.real, outputName p.1⟩ : Z3Var))
    | _ => none

theorem inputEntries_cons (p : Nat × Node) (ps : List (Nat × Node)) :
    inputEntries (p :: ps) = nodeInputEntry p.2 p.1 ++ inputEntries ps := by
  cases h : p.2 <;> simp [inputEntries, nodeInputEntry, List.filterMap_cons, h]

theorem inputEntries_keys_sublist (nodes : List (Nat × Node)) :
    ((inputEntries nodes).map Prod.fst).Sublist (nodes.map Prod.fst) := by
  induction nodes with
  | nil => simp [inputEntries]
  | cons p ps ihp =>
    rw [inputEntries_cons]
    cases hp2 : p.2 <;> simp [nodeInputEntry] <;>
      first
        | exact ihp
        | exact ihp.cons p.1

theorem outputEntries_cons (p : Nat × Node) (ps : List (Nat × Node)) :
    outputEntries (p :: ps) = nodeOutputEntry p.2 p.1 ++ outputEntries ps := by
  cases h : p.2 <;> simp [outputEntries, nodeOutputEntry, List.filterMap_cons, h]

theorem outputEntries_keys_sublist (nodes : List (Nat × Node)) :
    ((outputEntries nodes).map Prod.fst).Sublist (nodes.map Prod.fst) := by
  induction nodes with
  | nil => simp [outputEntries]
  | cons p ps ihp =>
    rw [outputEntries_cons]
    cases hp2 : p.2 <;> simp [nodeOutputEntry] <;>
      first
        | exact ihp
        | exact ihp.cons p.1

/-- Effect of one node-encoder call on the three variable maps and the
constraint list: `edge_map` is untouched, `input_map`/`output_map` gain at
most the node's own entry, and `others` is extended append-only. -/
theorem Node.model_maps {n : Node} {g : FlowGraph} {idx : Nat}
    {h r : Z3QuantHelper} (hm : Node.model n g idx h = some r) :
    r.edge_map = h.edge_map ∧
    r.input_map = nodeInputEntry n idx ++ h.input_map ∧
    r.output_map = nodeOutputEntry n idx ++ h.output_map ∧
    ∃ t, r.others = h.others ++ t := by
  cases n with
  | connector c =>
    obtain ⟨ins, outs, _, _, hr⟩ := kirchhoff_law_some hm
    subst hr
    exact ⟨rfl, rfl, rfl, _, rfl⟩
  | input inp =>
    obtain ⟨o, rest, v, _, _, hr⟩ := input_model_some hm
    subst hr
    exact ⟨rfl, rfl, rfl, _, rfl⟩
  | output out =>
    have hm' : Output.model out g idx h = some r := hm
    obtain ⟨i, rest, v, _, _, hr⟩ := output_model_some hm'
    subst hr
    exact ⟨rfl, rfl, rfl, _, rfl⟩
  | merger m =>
    obtain ⟨ins, outs, _, _, hr⟩ := kirchhoff_law_some hm
    subst hr
    exact ⟨rfl, rfl, rfl, _, rfl⟩
  | splitter s =>
    obtain ⟨h1, ast, hk, _, hr⟩ := splitter_model_some hm
    obtain ⟨ins, outs, _, _, hr1⟩ := kirchhoff_law_some hk
    subst hr hr1
    exact ⟨rfl, rfl, rfl,
      [BoolExpr.eq (RealExpr.add (ins.map RealExpr.var))
         (RealExpr.add (outs.map RealExpr.var)), ast], by simp⟩

/-- Effect of the edge pass on the context. -/
theorem edge_fold_maps (edges : List (Nat × Edge)) (h0 : Z3QuantHelper) :
    ((edges.foldl (fun h p => Edge.model p.2 p.1 h) h0).edge_map
        = (edgeEntries edges).reverse ++ h0.edge_map) ∧
    ((edges.foldl (fun h p => Edge.model p.2 p.1 h) h0).input_map
        = h0.input_map) ∧
    ((edges.foldl (fun h p => Edge.model p.2 p.1 h) h0).output_map
        = h0.output_map) ∧
    ∃ t, (edges.foldl (fun h p => Edge.model p.2 p.1 h) h0).others
        = h0.others ++ t := by
  induction edges generalizing h0 with
  | nil => exact ⟨rfl, rfl, rfl, [], by simp⟩
  | cons p ps ih =>
    obtain ⟨he, hi, ho, t, hoth⟩ := ih (Edge.model p.2 p.1 h0)
    refine ⟨?_, by simpa using hi, by simpa using ho, ?_⟩
    · rw [List.foldl_cons, he]
      simp [edgeEntries, Edge.model]
    · refine ⟨[BoolExpr.le (RealExpr.var ⟨Z3Sort.real, edgeName p.1⟩)
          (RealExpr.num (u128AsI32 p.2.capacity.numer)
            (u128AsI32 p.2.capacity.denom)),
        BoolExpr.ge (RealExpr.var ⟨Z3Sort.real, edgeName p.1⟩)
          (RealExpr.num 0 1)] ++ t, ?_⟩
      rw [List.foldl_cons, hoth]
      simp [Edge.model]

/-- Effect of the node pass on the context. -/
theorem node_fold_maps (nodes : List (Nat × Node)) (g : FlowGraph)
    (h0 r : Z3QuantHelper)
    (hm : nodes.foldlM (fun h p => Node.model p.2 g p.1 h) h0 = some r) :
    r.edge_map = h0.edge_map ∧
    r.input_map = (inputEntries nodes).reverse ++ h0.input_map ∧
    r.output_map = (outputEntries nodes).reverse ++ h0.output_map ∧
    ∃ t, r.others = h0.others ++ t := by
  induction nodes generalizing h0 with
  | nil =>
    simp at hm
    subst hm
    exact ⟨rfl, by simp [inputEntries], by simp [outputEntries], [], by simp⟩
  | cons p ps ih =>
    rw [List.foldlM_cons] at hm
    cases hstep : Node.model p.2 g p.1 h0 with
    | none => rw [hstep] at hm; simp at hm
    | some h1 =>
      rw [hstep] at hm
      simp only [Option.bind_eq_bind, Option.some_bind] at hm
      obtain ⟨he, hi, ho, t, hoth⟩ := Node.model_maps hstep
      obtain ⟨he', hi', ho', t', hoth'⟩ := ih h1 hm
      refine ⟨by rw [he', he], ?_, ?_, ?_⟩
      · rw [hi', hi, inputEntries_cons]
        simp
        cases p.2 <;> simp [nodeInputEntry]
      · rw [ho', ho, outputEntries_cons]
        simp
        cases p.2 <;> simp [nodeOutputEntry]
      · exact ⟨t ++ t', by rw [hoth', hoth]; simp⟩

/-! ## Claim C9 -/

/-- Claim C9: every encoder call only appends to the context — the
constraint list keeps the previous constraints as a prefix and the maps
only grow — and no identity is mapped twice: after a full encoding pass
over distinct edge identities and distinct node identities, the
identity → variable maps contain exactly one entry per encoded identity
(so they are bijections onto their variables within the pass). -/
theorem C9_append_only_bijection (g : FlowGraph) (edges : List (Nat × Edge))
    (nodes : List (Nat × Node)) (r : Z3QuantHelper)
    (hp : encodePass g edges nodes = some r)
    (hde : (edges.map Prod.fst).Nodup) (hdn : (nodes.map Prod.fst).Nodup) :
    (∀ (e : Edge) (i : Nat) (h : Z3QuantHelper),
        (∃ t, (Edge.model e i h).others = h.others ++ t) ∧
        (Edge.model e i h).edge_map = (i, ⟨Z3Sort.real, edgeName i⟩) :: h.edge_map) ∧
    (∀ (n : Node) (i : Nat) (h r' : Z3QuantHelper), Node.model n g i h = some r' →
        (∃ t, r'.others = h.others ++ t) ∧
        r'.edge_map = h.edge_map ∧
        r'.input_map = nodeInputEntry n i ++ h.input_map ∧
        r'.output_map = nodeOutputEntry n i ++ h.output_map) ∧
    r.edge_map = (edgeEntries edges).reverse ∧
    r.input_map = (inputEntries nodes).reverse ∧
    r.output_map = (outputEntries nodes).reverse ∧
    (r.edge_map.map Prod.fst).Nodup ∧
    (r.input_map.map Prod.fst).Nodup ∧
    (r.output_map.map Prod.fst).Nodup := by
  have hedge := edge_fold_maps edges Z3QuantHelper.empty
  unfold encodePass at hp
  have hnode := node_fold_maps nodes g _ r hp
  have hem : r.edge_map = (edgeEntries edges).reverse := by
    rw [hnode.1, hedge.1]
    simp [Z3QuantHelper.empty]
  have him : r.input_map = (inputEntries nodes).reverse := by
    rw [hnode.2.1, hedge.2.1]
    simp [Z3QuantHelper.empty]
  have hom : r.output_map = (outputEntries nodes).reverse := by
    rw [hnode.2.2.1, hedge.2.2.1]
    simp [Z3QuantHelper.empty]
  refine ⟨?_, ?_, hem, him, hom, ?_, ?_, ?_⟩
  · intro e i h
    exact ⟨⟨_, rfl⟩, rfl⟩
  · intro n i h r' hm
    obtain ⟨he, hi, ho, t, hoth⟩ := Node.model_maps hm
    exact ⟨⟨t, hoth⟩, he, hi, ho⟩
  · rw [hem]
    have : (edgeEntries edges).map Prod.fst = edges.map Prod.fst := by
      simp [edgeEntries]
    simp only [List.map_reverse, List.nodup_reverse, this]
    exact hde
  · rw [him]
    simp only [List.map_reverse, List.nodup_reverse]
    exact hdn.sublist (inputEntries_keys_sublist nodes)
  · rw [hom]
    simp only [List.map_reverse, List.nodup_reverse]
    exact hdn.sublist (outputEntries_keys_sublist nodes)

/-- Concrete edge list for the witness pass over `gW`. -/
def edgesW : List (Nat × Edge) := [(0, ⟨⟨3, 1⟩⟩), (1, ⟨⟨2, 1⟩⟩), (2, ⟨⟨5, 1⟩⟩)]

/-- Concrete node list for the witness pass over `gW`. -/
def nodesW : List (Nat × Node) :=
  [(0, .input ⟨5⟩), (2, .splitter ⟨none⟩), (3, .output ⟨⟩)]

/-- Witness for `C9_append_only_bijection` on the concrete pass over `gW`. -/
theorem C9_append_only_bijection_witness :
    ((encodePass gW edgesW nodesW).map fun r => r.edge_map) =
      some ((edgeEntries edgesW).reverse) := by
  have hp : ∃ r, encodePass gW edgesW nodesW = some r := ⟨_, rfl⟩
  obtain ⟨r, hr⟩ := hp
  rw [hr]
  exact congrArg some
    (C9_append_only_bijection gW edgesW nodesW r hr (by decide) (by decide)).2.2.1

/-! ## Decimal rendering: `format!("{}", n)` = `Nat.repr` and its
injectivity -/

/-- The decimal digit characters of `n`, most significant first: the
reference rendering that `Nat.repr` (and hence Rust's `format!("{}")`,
which also renders unsigned decimals) produces. -/
def decChars (n : Nat) : List Char :=
  if _h : n < 10 then [Nat.digitChar n]
  else decChars (n / 10) ++ [Nat.digitChar (n % 10)]
termination_by n
decreasing_by exact Nat.div_lt_self (by omega) (by norm_num)

theorem toDigitsCore_eq_decChars (fuel : Nat) :
    ∀ (n : Nat) (ds : List Char), n < 10 ^ fuel → 0 < fuel →
      Nat.toDigitsCore 10 fuel n ds = decChars n ++ ds := by
  induction fuel with
  | zero => intro n ds _ hpos; omega
  | succ f ih =>
    intro n ds hf _
    show (let d := Nat.digitChar (n % 10); let n' := n / 10;
          if n' = 0 then d :: ds else Nat.toDigitsCore 10 f n' (d :: ds))
        = decChars n ++ ds
    by_cases h0 : n / 10 = 0
    · have hn : n < 10 := by omega
      simp only [h0, if_true]
      rw [decChars, dif_pos hn, Nat.mod_eq_of_lt hn]
      rfl
    · have hge : 10 ≤ n := by omega
      have hf' : n / 10 < 10 ^ f := by
        rw [Nat.div_lt_iff_lt_mul (by norm_num)]
        calc n < 10 ^ (f + 1) := hf
          _ = 10 ^ f * 10 := by rw [pow_succ]
      have hfp : 0 < f := by
        rcases Nat.eq_zero_or_pos f with h | h
        · subst h; simp at hf; omega
        · exact h
      simp only [h0, if_false]
      rw [ih (n / 10) (Nat.digitChar (n % 10) :: ds) hf' hfp]
      conv_rhs => rw [decChars, dif_neg (by omega : ¬ n < 10)]
      simp

theorem repr_eq_decChars (n : Nat) : Nat.repr n = (decChars n).asString := by
  show (Nat.toDigits 10 n).asString = (decChars n).asString
  unfold Nat.toDigits
  rw [toDigitsCore_eq_decChars (n + 1) n [] ?_ (Nat.succ_pos n)]
  · simp
  · calc n < 10 ^ n := Nat.lt_pow_self (by norm_num) n
      _ ≤ 10 ^ (n + 1) := Nat.pow_le_pow_right (by norm_num) (Nat.le_succ n)

/-- Decimal value of a digit character. -/
def digitVal (c : Char) : Nat := c.toNat - 48

theorem digitVal_digitChar : ∀ d < 10, digitVal (Nat.digitChar d) = d := by
  decide

theorem underscore_not_digitChar : ∀ d < 10, Nat.digitChar d ≠ '_' := by
  decide

theorem foldl_decChars (n : Nat) :
    ∀ acc : Nat,
      (decChars n).foldl (fun acc c => acc * 10 + digitVal c) acc =
        acc * 10 ^ (decChars n).length + n := by
  induction n using Nat.strong_induction_on with
  | _ n ih =>
    intro acc
    by_cases h : n < 10
    · rw [decChars, dif_pos h]
      simp [digitVal_digitChar n h]
    · rw [decChars, dif_neg h]
      rw [List.foldl_append]
      rw [ih (n / 10) (Nat.div_lt_self (by omega) (by norm_num)) acc]
      simp only [List.foldl_cons, List.foldl_nil, List.length_append,
        List.length_singleton]
      rw [digitVal_digitChar (n % 10) (Nat.mod_lt n (by norm_num))]
      have hdm : 10 * (n / 10) + n % 10 = n := Nat.div_add_mod n 10
      calc (acc * 10 ^ (decChars (n / 10)).length + n / 10) * 10 + n % 10
          = acc * (10 ^ (decChars (n / 10)).length * 10) +
              (10 * (n / 10) + n % 10) := by ring
        _ = acc * 10 ^ ((decChars (n / 10)).length + 1) + n := by
              rw [hdm, pow_succ]

theorem decChars_inj {m n : Nat} (h : decChars m = decChars n) : m = n := by
  have hm := foldl_decChars m 0
  have hn := foldl_decChars n 0
  rw [h] at hm
  simp only [Nat.zero_mul, Nat.zero_add] at hm hn
  rw [hm] at hn
  exact hn

theorem underscore_not_mem_decChars (n : Nat) : '_' ∉ decChars n := by
  induction n using Nat.strong_induction_on with
  | _ n ih =>
    by_cases h : n < 10
    · rw [decChars, dif_pos h]
      simp [(underscore_not_digitChar n h).symm]
    · rw [decChars, dif_neg h]
      simp only [List.mem_append, List.mem_singleton]
      push_neg
      exact ⟨ih (n / 10) (Nat.div_lt_self (by omega) (by norm_num)),
        fun hc => underscore_not_digitChar (n % 10)
          (Nat.mod_lt n (by norm_num)) hc.symm⟩

theorem repr_injective {m n : Nat} (h : Nat.repr m = Nat.repr n) : m = n := by
  rw [repr_eq_decChars, repr_eq_decChars] at h
  exact decChars_inj (congrArg String.data h)

theorem toString_nat_data (n : Nat) : (toString n).data = decChars n := by
  show (Nat.repr n).data = decChars n
  rw [repr_eq_decChars]
  rfl

/-! ## Name uniqueness -/

theorem append_underscore_inj :
    ∀ (l1 l2 r1 r2 : List Char), '_' ∉ l1 → '_' ∉ l2 →
      l1 ++ '_' :: r1 = l2 ++ '_' :: r2 → l1 = l2 ∧ r1 = r2 := by
  intro l1
  induction l1 with
  | nil =>
    intro l2 r1 r2 _ h2 h
    cases l2 with
    | nil => simpa using h
    | cons d ds =>
      simp at h
      exact absurd (h.1 ▸ List.mem_cons_self d ds) (h.1 ▸ h2)
  | cons c cs ih =>
    intro l2 r1 r2 h1 h2 h
    cases l2 with
    | nil =>
      simp at h
      exact absurd (h.1 ▸ List.mem_cons_self c cs) (h.1 ▸ h1)
    | cons d ds =>
      simp at h
      obtain ⟨rfl, h'⟩ := h
      have h1' : '_' ∉ cs := fun hc => h1 (List.mem_cons_of_mem c hc)
      have h2' : '_' ∉ ds := fun hc => h2 (List.mem_cons_of_mem c hc)
      obtain ⟨hcs, hr⟩ := ih ds r1 r2 h1' h2' h'
      exact ⟨by rw [hcs], hr⟩

theorem edgeName_inj {i j : Nat} (h : edgeName i = edgeName j) : i = j := by
  have hd := congrArg String.data h
  simp only [edgeName, String.data_append, toString_nat_data] at hd
  simp at hd
  exact decChars_inj hd

theorem outputName_inj {i j : Nat} (h : outputName i = outputName j) :
    i = j := by
  have hd := congrArg String.data h
  simp only [outputName, String.data_append, toString_nat_data] at hd
  simp at hd
  exact decChars_inj hd

theorem inputName_inj {i j a b : Nat} (h : inputName i a = inputName j b) :
    i = j ∧ a = b := by
  have hd := congrArg String.data h
  simp only [inputName, String.data_append, toString_nat_data] at hd
  simp at hd
  obtain ⟨h1, h2⟩ := append_underscore_inj _ _ _ _
    (underscore_not_mem_decChars i) (underscore_not_mem_decChars j) hd
  exact ⟨decChars_inj h1, decChars_inj h2⟩

theorem edgeName_ne_inputName (i j a : Nat) : edgeName i ≠ inputName j a := by
  intro h
  have hd := congrArg String.data h
  simp only [edgeName, inputName, String.data_append] at hd
  simp [toString_nat_data] at hd

theorem edgeName_ne_outputName (i j : Nat) : edgeName i ≠ outputName j := by
  intro h
  have hd := congrArg String.data h
  simp only [edgeName, outputName, String.data_append] at hd
  simp [toString_nat_data] at hd

theorem outputName_ne_inputName (i j a : Nat) : outputName i ≠ inputName j a := by
  intro h
  have hd := congrArg String.data h
  simp only [outputName, inputName, String.data_append] at hd
  simp [toString_nat_data] at hd

theorem mem_inputEntries {nodes : List (Nat × Node)} {p : Nat × Z3Var}
    (hm : p ∈ inputEntries nodes) :
    ∃ a : Nat, p.2 = ⟨Z3Sort.int, inputName p.1 a⟩ := by
  unfold inputEntries at hm
  rw [List.mem_filterMap] at hm
  obtain ⟨q, _, hq⟩ := hm
  cases hq2 : q.2 <;> rw [hq2] at hq <;> simp at hq
  case input inp =>
    exact ⟨inp.id, by rw [← hq]⟩

theorem mem_outputEntries {nodes : List (Nat × Node)} {p : Nat × Z3Var}
    (hm : p ∈ outputEntries nodes) :
    p.2 = ⟨Z3Sort.real, outputName p.1⟩ := by
  unfold outputEntries at hm
  rw [List.mem_filterMap] at hm
  obtain ⟨q, _, hq⟩ := hm
  cases hq2 : q.2 <;> rw [hq2] at hq <;> simp at hq
  case output out =>
    rw [← hq]

theorem edge_names_nodup {edges : List (Nat × Edge)}
    (hde : (edges.map Prod.fst).Nodup) :
    ((edgeEntries edges).map fun p => p.2.name).Nodup := by
  have heq : (edgeEntries edges).map (fun p => p.2.name) =
      (edges.map Prod.fst).map edgeName := by
    simp [edgeEntries, Function.comp]
  rw [heq]
  exact hde.map (fun a b hab => edgeName_inj hab)

theorem inputEntries_names_nodup {nodes : List (Nat × Node)}
    (hdn : (nodes.map Prod.fst).Nodup) :
    ((inputEntries nodes).map fun p => p.2.name).Nodup := by
  have hkeys : ((inputEntries nodes).map Prod.fst).Nodup :=
    hdn.sublist (inputEntries_keys_sublist nodes)
  have hent : (inputEntries nodes).Nodup := hkeys.of_map
  refine List.Nodup.map_on ?_ hent
  intro x hx y hy hxy
  obtain ⟨a, hxa⟩ := mem_inputEntries hx
  obtain ⟨b, hyb⟩ := mem_inputEntries hy
  rw [hxa, hyb] at hxy
  obtain ⟨h1, h2⟩ := inputName_inj hxy
  have : x.2 = y.2 := by rw [hxa, hyb, h1, h2]
  exact Prod.ext h1 this

theorem outputEntries_names_nodup {nodes : List (Nat × Node)}
    (hdn : (nodes.map Prod.fst).Nodup) :
    ((outputEntries nodes).map fun p => p.2.name).Nodup := by
  have hkeys : ((outputEntries nodes).map Prod.fst).Nodup :=
    hdn.sublist (outputEntries_keys_sublist nodes)
  have hent : (outputEntries nodes).Nodup := hkeys.of_map
  refine List.Nodup.map_on ?_ hent
  intro x hx y hy hxy
  have hxa := mem_outputEntries hx
  have hyb := mem_outputEntries hy
  rw [hxa, hyb] at hxy
  have h1 := outputName_inj hxy
  have : x.2 = y.2 := by rw [hxa, hyb, h1]
  exact Prod.ext h1 this

theorem mem_edge_names {edges : List (Nat × Edge)} {x : String}
    (hx : x ∈ (edgeEntries edges).map fun p => p.2.name) :
    ∃ i, x = edgeName i := by
  rw [List.mem_map] at hx
  obtain ⟨p, hp, hname⟩ := hx
  unfold edgeEntries at hp
  rw [List.mem_map] at hp
  obtain ⟨q, _, hq⟩ := hp
  exact ⟨q.1, by rw [← hname, ← hq]⟩

theorem mem_input_names {nodes : List (Nat × Node)} {x : String}
    (hx : x ∈ (inputEntries nodes).map fun p => p.2.name) :
    ∃ i a, x = inputName i a := by
  rw [List.mem_map] at hx
  obtain ⟨p, hp, hname⟩ := hx
  obtain ⟨a, ha⟩ := mem_inputEntries hp
  exact ⟨p.1, a, by rw [← hname, ha]⟩

theorem mem_output_names {nodes : List (Nat × Node)} {x : String}
    (hx : x ∈ (outputEntries nodes).map fun p => p.2.name) :
    ∃ i, x = outputName i := by
  rw [List.mem_map] at hx
  obtain ⟨p, hp, hname⟩ := hx
  have ha := mem_outputEntries hp
  exact ⟨p.1, by rw [← hname, ha]⟩

/-! ## Claim C8 -/

/-- Claim C8: variable names are generated deterministically from graph
identities — edge variables from the edge identity, input variables from
the node identity together with the stable external id, output variables
from the node identity alone — and within one encoding pass over distinct
edge and node identities ALL generated variable names (across the three
maps together) are pairwise distinct. -/
theorem C8_deterministic_unique_names (g : FlowGraph)
    (edges : List (Nat × Edge)) (nodes : List (Nat × Node))
    (r : Z3QuantHelper) (hp : encodePass g edges nodes = some r)
    (hde : (edges.map Prod.fst).Nodup) (hdn : (nodes.map Prod.fst).Nodup) :
    (∀ (e : Edge) (i : Nat) (h : Z3QuantHelper),
        (Edge.model e i h).edge_map.head? =
          some (i, ⟨Z3Sort.real, edgeName i⟩)) ∧
    (∀ (inp : Input) (i : Nat) (h r' : Z3QuantHelper),
        Input.model inp g i h = some r' →
        r'.input_map.head? = some (i, ⟨Z3Sort.int, inputName i inp.id⟩)) ∧
    (∀ (out : Output) (i : Nat) (h r' : Z3QuantHelper),
        Output.model out g i h = some r' →
        r'.output_map.head? = some (i, ⟨Z3Sort.real, outputName i⟩)) ∧
    (∀ i j : Nat, edgeName i = edgeName j → i = j) ∧
    (∀ i j a b : Nat, inputName i a = inputName j b → i = j ∧ a = b) ∧
    (∀ i j : Nat, outputName i = outputName j → i = j) ∧
    (∀ i j a : Nat, edgeName i ≠ inputName j a ∧ edgeName i ≠ outputName j ∧
        outputName i ≠ inputName j a) ∧
    ((r.edge_map ++ r.input_map ++ r.output_map).map fun p => p.2.name).Nodup := by
  have hedge := edge_fold_maps edges Z3QuantHelper.empty
  unfold encodePass at hp
  have hnode := node_fold_maps nodes g _ r hp
  have hem : r.edge_map = (edgeEntries edges).reverse := by
    rw [hnode.1, hedge.1]
    simp [Z3QuantHelper.empty]
  have him : r.input_map = (inputEntries nodes).reverse := by
    rw [hnode.2.1, hedge.2.1]
    simp [Z3QuantHelper.empty]
  have hom : r.output_map = (outputEntries nodes).reverse := by
    rw [hnode.2.2.1, hedge.2.2.1]
    simp [Z3QuantHelper.empty]
  refine ⟨?_, ?_, ?_, fun i j hij => edgeName_inj hij,
    fun i j a b hab => inputName_inj hab,
    fun i j hij => outputName_inj hij,
    fun i j a => ⟨edgeName_ne_inputName i j a, edgeName_ne_outputName i j,
      outputName_ne_inputName i j a⟩, ?_⟩
  · intro e i h
    rfl
  · intro inp i h r' hm
    obtain ⟨o, rest, v, _, _, hr'⟩ := input_model_some hm
    rw [hr']
    rfl
  · intro out i h r' hm
    obtain ⟨o, rest, v, _, _, hr'⟩ := output_model_some hm
    rw [hr']
    rfl
  · rw [hem, him, hom]
    simp only [List.map_append, List.map_reverse]
    refine List.Nodup.append (List.Nodup.append ?_ ?_ ?_) ?_ ?_
    · simpa [List.nodup_reverse] using edge_names_nodup hde
    · simpa [List.nodup_reverse] using inputEntries_names_nodup hdn
    · intro x hx hy
      obtain ⟨i, rfl⟩ := mem_edge_names (List.mem_reverse.mp hx)
      obtain ⟨j, a, hy'⟩ := mem_input_names (List.mem_reverse.mp hy)
      exact edgeName_ne_inputName i j a hy'
    · simpa [List.nodup_reverse] using outputEntries_names_nodup hdn
    · intro x hx hy
      obtain ⟨k, rfl⟩ := mem_output_names (List.mem_reverse.mp hy)
      rcases List.mem_append.mp hx with hx' | hx'
      · obtain ⟨i, hi⟩ := mem_edge_names (List.mem_reverse.mp hx')
        exact edgeName_ne_outputName i k hi.symm
      · obtain ⟨i, a, hi⟩ := mem_input_names (List.mem_reverse.mp hx')
        exact outputName_ne_inputName k i a hi

/-- Witness for `C8_deterministic_unique_names` on the concrete pass over
`gW`: two of the distinct generated names. -/
theorem C8_deterministic_unique_names_witness :
    edgeName 0 ≠ inputName 0 5 := by
  have hp : ∃ r, encodePass gW edgesW nodesW = some r := ⟨_, rfl⟩
  obtain ⟨r, hr⟩ := hp
  exact ((C8_deterministic_unique_names gW edgesW nodesW r hr (by decide)
    (by decide)).2.2.2.2.2.2.1 0 0 5).1

/-! ## Claim C10 -/

/-- Claim C10: the encoding pass is deterministic — on equal graphs, equal
edge lists and equal node lists, two runs produce equal contexts
(identical constraint lists and variable maps, including the splitter
tie-break, which depends only on the graph data). -/
theorem C10_deterministic (g1 g2 : FlowGraph) (e1 e2 : List (Nat × Edge))
    (n1 n2 : List (Nat × Node)) (hg : g1 = g2) (he : e1 = e2) (hn : n1 = n2) :
    encodePass g1 e1 n1 = encodePass g2 e2 n2 := by
  subst hg
  subst he
  subst hn
  rfl

/-- Witness for `C10_deterministic` on the concrete pass over `gW`. -/
theorem C10_deterministic_witness :
    encodePass gW edgesW nodesW = encodePass gW edgesW nodesW :=
  C10_deterministic gW gW edgesW edgesW nodesW nodesW rfl rfl rfl

end Verifactory
